import Mathlib

set_option maxRecDepth 4096

/-!
Verification of the `fe` repository's arena allocator (`include/fe/arena.h`)
and symbol-interning pool (`include/fe/sym.h`) against its specification.

Modelling conventions:
* A page is represented by its byte capacity; an `Arena` keeps the list of
  page capacities in allocation order together with the `page_size_` and
  `index_` fields of the C++ class.  Byte counts are exact naturals
  (feasible allocation sizes never reach `2 ^ 64`); the one place where the
  machine width is semantically essential — the bitwise complement inside
  `Arena::align` — is modelled with explicit 64-bit masking.
* A pointer returned by `Arena::allocate` is modelled as the pair
  (index of the page it lies in, byte offset inside that page).
* A `Sym` wraps an optional pointer to its `String` record; `none` models
  the `nullptr` of the empty symbol.  Records are immutable once written,
  so the record's byte content is carried next to the pointer to model
  dereferencing; identity comparison looks only at the pointer component.
-/

namespace fe

/-- Model of the `fe::Arena` class (arena.h:21-139): `pages_` stores each
page's capacity in allocation order, `page_size_` and `index_` mirror the
fields of the C++ class. -/
structure Arena where
  pages_ : List Nat
  page_size_ : Nat
  index_ : Nat
deriving DecidableEq

/-- Constant `Arena::Default_Page_Size = 1024 * 1024` (arena.h:23). -/
def defaultPageSize : Nat := 1024 * 1024

/-- Constructor `Arena(size_t page_size)` (arena.h:78-80): no pages yet and
`index_` initialized to `page_size`. -/
def Arena.init (page_size : Nat) : Arena :=
  { pages_ := [], page_size_ := page_size, index_ := page_size }

/-- Result of one `Arena::allocate(num_bytes)` call: the returned pointer
`pages_.back() + index_` is modelled as the page index together with the
byte offset inside that page, and `size` records the requested byte count. -/
structure Chunk where
  page : Nat
  off : Nat
  size : Nat
deriving DecidableEq

/-- Model of `Arena::allocate(size_t num_bytes)` (arena.h:93-102): if the
current page lacks capacity, append a fresh page of capacity
`max(page_size_, num_bytes)` and reset `index_` to `0`; then hand out the
range starting at the cursor of the last page and bump the cursor. -/
def Arena.allocate (a : Arena) (num_bytes : Nat) : Arena × Chunk :=
  if a.index_ + num_bytes > a.page_size_ then
    let pages := a.pages_ ++ [max a.page_size_ num_bytes]
    ({ pages_ := pages, page_size_ := a.page_size_, index_ := num_bytes },
     { page := pages.length - 1, off := 0, size := num_bytes })
  else
    ({ a with index_ := a.index_ + num_bytes },
     { page := a.pages_.length - 1, off := a.index_, size := num_bytes })

/-- Model of `Arena::state()` (arena.h:123): the pair
`(pages_.size(), index_)`. -/
def Arena.state (a : Arena) : Nat × Nat := (a.pages_.length, a.index_)

/-- Model of `Arena::deallocate(State)` (arena.h:124-126): restore `index_`
only when the page count still equals the snapshot. -/
def Arena.deallocate (a : Arena) (st : Nat × Nat) : Arena :=
  if st.1 = a.pages_.length then { a with index_ := st.2 } else a

/-- Model of the friend `swap(Arena&, Arena&)` (arena.h:129-133): it swaps
`pages_` and `index_` but not `page_size_`. -/
def swapArenas (a1 a2 : Arena) : Arena × Arena :=
  ({ a1 with pages_ := a2.pages_, index_ := a2.index_ },
   { a2 with pages_ := a1.pages_, index_ := a1.index_ })

/-- Run a sequence of `allocate` calls, collecting the returned chunks. -/
def Arena.runAllocs (a : Arena) : List Nat → Arena × List Chunk
  | [] => (a, [])
  | n :: ns =>
    let p := a.allocate n
    let q := p.1.runAllocs ns
    (q.1, p.2 :: q.2)

/-- The call `a.allocate n` dereferences `pages_.back()`, which is only
defined when either the page list is nonempty or the new-page branch is
taken first. -/
def Arena.allocSafe (a : Arena) (n : Nat) : Prop :=
  a.pages_ ≠ [] ∨ a.index_ + n > a.page_size_

/-- Every `allocate` call of the trace is `allocSafe` in the state where it
runs. -/
def Arena.traceSafe : Arena → List Nat → Prop
  | _, [] => True
  | a, n :: ns => a.allocSafe n ∧ Arena.traceSafe (a.allocate n).1 ns

/-- Cursor invariant: while no page exists, the cursor sits at (or past)
`page_size_`, exactly as the constructor leaves it. -/
def Arena.cursorInv (a : Arena) : Prop :=
  a.pages_ = [] → a.page_size_ ≤ a.index_

/-- Capacity invariant: every page holds at least `page_size_` bytes. -/
def Arena.capInv (a : Arena) : Prop :=
  ∀ c ∈ a.pages_, a.page_size_ ≤ c

/-- Both structural invariants of an arena. -/
def Arena.goodState (a : Arena) : Prop := a.cursorInv ∧ a.capInv

/-- Chunk `c` denotes a real byte range of arena `a`: its page exists, the
range fits the page capacity, and on the current page it ends at or below
the cursor. -/
def Arena.inBounds (a : Arena) (c : Chunk) : Prop :=
  c.page < a.pages_.length ∧
  c.off + c.size ≤ a.pages_.getD c.page 0 ∧
  (c.page = a.pages_.length - 1 → c.off + c.size ≤ a.index_)

/-- Two chunks do not overlap: distinct pages or disjoint offset ranges. -/
def Chunk.disj (c1 c2 : Chunk) : Prop :=
  c1.page ≠ c2.page ∨ c1.off + c1.size ≤ c2.off ∨ c2.off + c2.size ≤ c1.off

/-! ### Basic lemmas about `allocate` -/

theorem Arena.allocate_new (a : Arena) (n : Nat)
    (h : a.index_ + n > a.page_size_) :
    a.allocate n =
      ({ pages_ := a.pages_ ++ [max a.page_size_ n],
         page_size_ := a.page_size_, index_ := n },
       { page := a.pages_.length, off := 0, size := n }) := by
  simp [Arena.allocate, h]

theorem Arena.allocate_fits (a : Arena) (n : Nat)
    (h : ¬ a.index_ + n > a.page_size_) :
    a.allocate n =
      ({ a with index_ := a.index_ + n },
       { page := a.pages_.length - 1, off := a.index_, size := n }) := by
  simp [Arena.allocate, h]

theorem Arena.cursorInv_allocate (a : Arena) (n : Nat) (h : a.cursorInv) :
    ((a.allocate n).1).cursorInv := by
  by_cases hb : a.index_ + n > a.page_size_
  · rw [a.allocate_new n hb]
    intro hc
    simp at hc
  · rw [a.allocate_fits n hb]
    intro hc
    exact Nat.le_add_right_of_le (h hc)

theorem Arena.capInv_allocate (a : Arena) (n : Nat) (h : a.capInv) :
    ((a.allocate n).1).capInv := by
  by_cases hb : a.index_ + n > a.page_size_
  · rw [a.allocate_new n hb]
    intro c hc
    simp only [List.mem_append, List.mem_singleton] at hc
    rcases hc with hc | hc
    · exact h c hc
    · simp [hc, Nat.le_max_left]
  · rw [a.allocate_fits n hb]
    exact h

theorem Arena.goodState_allocate (a : Arena) (n : Nat) (h : a.goodState) :
    ((a.allocate n).1).goodState :=
  ⟨a.cursorInv_allocate n h.1, a.capInv_allocate n h.2⟩

theorem Arena.length_le_allocate (a : Arena) (n : Nat) :
    a.pages_.length ≤ ((a.allocate n).1).pages_.length := by
  by_cases hb : a.index_ + n > a.page_size_
  · rw [a.allocate_new n hb]
    simp
  · rw [a.allocate_fits n hb]

theorem Arena.inBounds_allocate (a : Arena) (c : Chunk) (n : Nat)
    (h : a.inBounds c) : ((a.allocate n).1).inBounds c := by
  obtain ⟨h1, h2, h3⟩ := h
  by_cases hb : a.index_ + n > a.page_size_
  · rw [a.allocate_new n hb]
    refine ⟨?_, ?_, ?_⟩
    · simp only [List.length_append, List.length_singleton]
      omega
    · rw [List.getD_append _ _ _ _ h1]
      exact h2
    · simp only [List.length_append, List.length_singleton]
      intro hc
      omega
  · rw [a.allocate_fits n hb]
    exact ⟨h1, h2, fun hc => Nat.le_add_right_of_le (h3 hc)⟩

/-- The chunk returned by `allocate` is in bounds of the new arena, and is
disjoint from every chunk that was in bounds before the call. -/
theorem Arena.allocate_fresh (a : Arena) (n : Nat) (hg : a.goodState)
    (hn : 1 ≤ n) :
    ((a.allocate n).1).inBounds (a.allocate n).2 ∧
    ∀ c, a.inBounds c → Chunk.disj c (a.allocate n).2 := by
  by_cases hb : a.index_ + n > a.page_size_
  · rw [a.allocate_new n hb]
    constructor
    · refine ⟨?_, ?_, ?_⟩
      · simp
      · simp [List.getD_append_right, Nat.le_max_right]
      · simp only [List.length_append, List.length_singleton]
        intro
        omega
    · intro c hc
      obtain ⟨h1, _, _⟩ := hc
      left
      simp only
      omega
  · rw [a.allocate_fits n hb]
    have hne : a.pages_ ≠ [] := by
      intro he
      have := hg.1 he
      omega
    have hlen : 1 ≤ a.pages_.length := by
      cases hp : a.pages_ with
      | nil => exact absurd hp hne
      | cons x xs => simp
    constructor
    · have hlt : a.pages_.length - 1 < a.pages_.length := by omega
      have hcap : a.page_size_ ≤ a.pages_.getD (a.pages_.length - 1) 0 := by
        rw [List.getD_eq_getElem a.pages_ 0 hlt]
        exact hg.2 _ (List.getElem_mem hlt)
      exact ⟨hlt, by simp only; omega, fun _ => by simp only; omega⟩
    · intro c hc
      obtain ⟨h1, h2, h3⟩ := hc
      by_cases hp : c.page = a.pages_.length - 1
      · right; left
        simpa using h3 hp
      · left
        simpa using hp

/-! ### Lemmas about allocation traces -/

theorem Arena.runAllocs_cons (a : Arena) (n : Nat) (ns : List Nat) :
    a.runAllocs (n :: ns) =
      (((a.allocate n).1.runAllocs ns).1,
       (a.allocate n).2 :: ((a.allocate n).1.runAllocs ns).2) := rfl

theorem Arena.goodState_runAllocs (ns : List Nat) : ∀ a : Arena,
    a.goodState → ((a.runAllocs ns).1).goodState := by
  induction ns with
  | nil => exact fun a h => h
  | cons n ns ih => exact fun a h => ih _ (a.goodState_allocate n h)

theorem Arena.inBounds_runAllocs (ns : List Nat) : ∀ (a : Arena) (c : Chunk),
    a.inBounds c → ((a.runAllocs ns).1).inBounds c := by
  induction ns with
  | nil => exact fun a c h => h
  | cons n ns ih => exact fun a c h => ih _ _ (a.inBounds_allocate c n h)

theorem Arena.allocate_page_eq (a : Arena) (n : Nat) :
    (a.allocate n).2.page = ((a.allocate n).1).pages_.length - 1 := by
  by_cases hb : a.index_ + n > a.page_size_
  · rw [a.allocate_new n hb]
    simp
  · rw [a.allocate_fits n hb]

theorem Arena.allocate_size_eq (a : Arena) (n : Nat) :
    (a.allocate n).2.size = n := by
  by_cases hb : a.index_ + n > a.page_size_
  · rw [a.allocate_new n hb]
  · rw [a.allocate_fits n hb]

theorem Arena.runAllocs_page_ge (ns : List Nat) : ∀ a : Arena,
    ∀ c ∈ (a.runAllocs ns).2, a.pages_.length - 1 ≤ c.page := by
  induction ns with
  | nil =>
    intro a c hc
    simp [Arena.runAllocs] at hc
  | cons n ns ih =>
    intro a c hc
    rw [Arena.runAllocs_cons] at hc
    rcases List.mem_cons.mp hc with hc | hc
    · subst hc
      have h1 := a.allocate_page_eq n
      have h2 := a.length_le_allocate n
      omega
    · have h1 := ih (a.allocate n).1 c hc
      have h2 := a.length_le_allocate n
      omega

theorem Arena.runAllocs_sizes (ns : List Nat) : ∀ a : Arena,
    ((a.runAllocs ns).2).map Chunk.size = ns := by
  induction ns with
  | nil =>
    intro a
    simp [Arena.runAllocs]
  | cons n ns ih =>
    intro a
    rw [Arena.runAllocs_cons]
    simp [a.allocate_size_eq n, ih]

theorem Arena.runAllocs_disj (ns : List Nat) : ∀ (a : Arena) (c0 : Chunk),
    a.goodState → (∀ n ∈ ns, 1 ≤ n) → a.inBounds c0 →
    ∀ c ∈ (a.runAllocs ns).2, Chunk.disj c0 c := by
  induction ns with
  | nil =>
    intro a c0 _ _ _ c hc
    simp [Arena.runAllocs] at hc
  | cons n ns ih =>
    intro a c0 hg hns h0 c hc
    rw [Arena.runAllocs_cons] at hc
    have hn : 1 ≤ n := hns n (by simp)
    rcases List.mem_cons.mp hc with hc | hc
    · subst hc
      exact (a.allocate_fresh n hg hn).2 c0 h0
    · exact ih _ c0 (a.goodState_allocate n hg)
        (fun m hm => hns m (by simp [hm]))
        (a.inBounds_allocate c0 n h0) c hc

theorem Arena.runAllocs_pairwise (ns : List Nat) : ∀ a : Arena,
    a.goodState → (∀ n ∈ ns, 1 ≤ n) →
    ((a.runAllocs ns).2.Pairwise Chunk.disj ∧
     ∀ c ∈ (a.runAllocs ns).2, ((a.runAllocs ns).1).inBounds c) := by
  induction ns with
  | nil =>
    intro a _ _
    simp [Arena.runAllocs]
  | cons n ns ih =>
    intro a hg hns
    have hn : 1 ≤ n := hns n (by simp)
    have hfresh := a.allocate_fresh n hg hn
    have hg1 := a.goodState_allocate n hg
    have hns1 : ∀ m ∈ ns, 1 ≤ m := fun m hm => hns m (by simp [hm])
    obtain ⟨hpw, hin⟩ := ih (a.allocate n).1 hg1 hns1
    rw [Arena.runAllocs_cons]
    constructor
    · exact List.Pairwise.cons
        (fun c hc => Arena.runAllocs_disj ns _ _ hg1 hns1 hfresh.1 c hc) hpw
    · intro c hc
      rcases List.mem_cons.mp hc with hc | hc
      · subst hc
        exact Arena.inBounds_runAllocs ns _ _ hfresh.1
      · exact hin c hc

theorem Arena.goodState_init (ps : Nat) : (Arena.init ps).goodState := by
  constructor
  · intro _
    exact le_refl _
  · intro c hc
    simp [Arena.init] at hc

theorem Arena.traceSafe_of_cursorInv (ns : List Nat) : ∀ a : Arena,
    a.cursorInv → (∀ n ∈ ns, 1 ≤ n) → a.traceSafe ns := by
  induction ns with
  | nil =>
    intro a _ _
    trivial
  | cons n ns ih =>
    intro a hc hns
    have hn : 1 ≤ n := hns n (by simp)
    constructor
    · by_cases hp : a.pages_ = []
      · right
        have := hc hp
        omega
      · left
        exact hp
    · exact ih _ (a.cursorInv_allocate n hc) (fun m hm => hns m (by simp [hm]))

/-! ### Arena claim theorems -/

/-- C3: `state()` (save), then `allocate(n)`, then `deallocate` (rollback)
with the saved state: if the allocation created no new page, the rollback
restores the arena exactly, so the next `allocate n` returns the very same
chunk; if the page count differs from the snapshot, the rollback is a
silent no-op and the arena stays at the post-allocation cursor. -/
theorem spec_c3_rollback (a : Arena) (n : Nat) :
    ((a.allocate n).1.pages_.length = a.pages_.length →
      (a.allocate n).1.deallocate a.state = a ∧
      ((a.allocate n).1.deallocate a.state).allocate n = a.allocate n) ∧
    ((a.allocate n).1.pages_.length ≠ a.pages_.length →
      (a.allocate n).1.deallocate a.state = (a.allocate n).1) := by
  by_cases hb : a.index_ + n > a.page_size_
  · have h1 : (a.allocate n).1.pages_.length = a.pages_.length + 1 := by
      rw [a.allocate_new n hb]
      simp
    have h2 : (a.allocate n).1.deallocate a.state = (a.allocate n).1 := by
      unfold Arena.deallocate Arena.state
      rw [if_neg]
      omega
    exact ⟨fun h => absurd h (by omega), fun _ => h2⟩
  · have hd : (a.allocate n).1.deallocate a.state = a := by
      rw [a.allocate_fits n hb]
      unfold Arena.deallocate Arena.state
      simp
    have hlen : (a.allocate n).1.pages_.length = a.pages_.length := by
      rw [a.allocate_fits n hb]
    exact ⟨fun _ => ⟨hd, by rw [hd]⟩, fun h => absurd hlen h⟩

/-- Witness for C3: both branches exercised on concrete arenas — a fitting
allocation rolls back exactly, a page-crossing one is a no-op. -/
theorem spec_c3_rollback_witness :
    ((Arena.mk [8] 8 4).allocate 2).1.deallocate (Arena.mk [8] 8 4).state
        = Arena.mk [8] 8 4 ∧
    ((Arena.init 8).allocate 4).1.deallocate (Arena.init 8).state
        = ((Arena.init 8).allocate 4).1 :=
  ⟨((spec_c3_rollback (Arena.mk [8] 8 4) 2).1 (by decide)).1,
   (spec_c3_rollback (Arena.init 8) 4).2 (by decide)⟩

/-- C5: when the current page lacks capacity for `n` bytes, `allocate n`
appends a fresh page of capacity `max page_size_ n`, the returned chunk
lies at offset `0` of that new current (last) page, the cursor advances to
`n`, and no later allocation in any continuation of the trace ever comes
from any of the previous pages again. -/
theorem spec_c5_new_page (a : Arena) (n : Nat)
    (h : a.index_ + n > a.page_size_) :
    (a.allocate n).1.pages_ = a.pages_ ++ [max a.page_size_ n] ∧
    (a.allocate n).2.page = (a.allocate n).1.pages_.length - 1 ∧
    (a.allocate n).2.page = a.pages_.length ∧
    (a.allocate n).2.off = 0 ∧
    (a.allocate n).1.index_ = n ∧
    ∀ ns, ∀ c ∈ ((a.allocate n).1.runAllocs ns).2, a.pages_.length ≤ c.page := by
  refine ⟨?_, a.allocate_page_eq n, ?_, ?_, ?_, ?_⟩
  · rw [a.allocate_new n h]
  · rw [a.allocate_new n h]
  · rw [a.allocate_new n h]
  · rw [a.allocate_new n h]
  · intro ns c hc
    have h1 := Arena.runAllocs_page_ge ns (a.allocate n).1 c hc
    have h2 : (a.allocate n).1.pages_.length = a.pages_.length + 1 := by
      rw [a.allocate_new n h]
      simp
    omega

/-- Witness for C5: first allocation on a fresh arena crosses into a new
page and yields offset `0` of page `0`. -/
theorem spec_c5_new_page_witness :
    (Arena.init 8).index_ + 3 > (Arena.init 8).page_size_ ∧
    ((Arena.init 8).allocate 3).1.pages_
      = (Arena.init 8).pages_ ++ [max (Arena.init 8).page_size_ 3] ∧
    ((Arena.init 8).allocate 3).2.off = 0 :=
  ⟨by decide, (spec_c5_new_page (Arena.init 8) 3 (by decide)).1,
   (spec_c5_new_page (Arena.init 8) 3 (by decide)).2.2.2.1⟩

/-- C6: for every finite sequence of `allocate` calls (each of at least one
byte) on one fresh arena, the returned chunks are pairwise non-overlapping,
every chunk lies within the capacity of its page, and every chunk has
exactly the requested size. -/
theorem spec_c6_no_overlap (ps : Nat) (ns : List Nat)
    (h : ∀ n ∈ ns, 1 ≤ n) :
    (((Arena.init ps).runAllocs ns).2).Pairwise Chunk.disj ∧
    (∀ c ∈ ((Arena.init ps).runAllocs ns).2,
      c.page < (((Arena.init ps).runAllocs ns).1).pages_.length ∧
      c.off + c.size ≤ (((Arena.init ps).runAllocs ns).1).pages_.getD c.page 0) ∧
    (((Arena.init ps).runAllocs ns).2).map Chunk.size = ns := by
  obtain ⟨h1, h2⟩ :=
    Arena.runAllocs_pairwise ns (Arena.init ps) (Arena.goodState_init ps) h
  exact ⟨h1, fun c hc => ⟨(h2 c hc).1, (h2 c hc).2.1⟩,
    Arena.runAllocs_sizes ns (Arena.init ps)⟩

/-- Witness for C6 at a concrete trace crossing one page boundary. -/
theorem spec_c6_no_overlap_witness :
    (∀ n ∈ [3, 7, 2], 1 ≤ n) ∧
    ((((Arena.init 8).runAllocs [3, 7, 2]).2).Pairwise Chunk.disj ∧
     (((Arena.init 8).runAllocs [3, 7, 2]).2).map Chunk.size = [3, 7, 2]) :=
  ⟨by decide,
   (spec_c6_no_overlap 8 [3, 7, 2] (by decide)).1,
   (spec_c6_no_overlap 8 [3, 7, 2] (by decide)).2.2⟩

/-- C9: `swap(Arena&, Arena&)` exchanges the two arenas' page lists and
cursor offsets but leaves each `page_size_` field in place, so after the
swap each arena still uses its own original default page size for the
capacity check and for the capacity of newly created pages. -/
theorem spec_c9_swap (a1 a2 : Arena) :
    (swapArenas a1 a2).1.page_size_ = a1.page_size_ ∧
    (swapArenas a1 a2).2.page_size_ = a2.page_size_ ∧
    (swapArenas a1 a2).1.pages_ = a2.pages_ ∧
    (swapArenas a1 a2).1.index_ = a2.index_ ∧
    (swapArenas a1 a2).2.pages_ = a1.pages_ ∧
    (swapArenas a1 a2).2.index_ = a1.index_ ∧
    (∀ n, a2.index_ + n > a1.page_size_ →
      ((swapArenas a1 a2).1.allocate n).1.pages_
        = a2.pages_ ++ [max a1.page_size_ n]) ∧
    (∀ n, ¬ a2.index_ + n > a1.page_size_ →
      ((swapArenas a1 a2).1.allocate n).1.pages_ = a2.pages_) := by
  refine ⟨rfl, rfl, rfl, rfl, rfl, rfl, ?_, ?_⟩
  · intro n hn
    have hn2 : ({ a1 with pages_ := a2.pages_, index_ := a2.index_ } : Arena).index_ + n
        > ({ a1 with pages_ := a2.pages_, index_ := a2.index_ } : Arena).page_size_ := hn
    show (Arena.allocate { a1 with pages_ := a2.pages_, index_ := a2.index_ } n).1.pages_
        = a2.pages_ ++ [max a1.page_size_ n]
    rw [Arena.allocate_new _ n hn2]
  · intro n hn
    have hn2 : ¬ ({ a1 with pages_ := a2.pages_, index_ := a2.index_ } : Arena).index_ + n
        > ({ a1 with pages_ := a2.pages_, index_ := a2.index_ } : Arena).page_size_ := hn
    show (Arena.allocate { a1 with pages_ := a2.pages_, index_ := a2.index_ } n).1.pages_
        = a2.pages_
    rw [Arena.allocate_fits _ n hn2]

/-- Witness for C9: swapping a small-page arena with a large-page one keeps
the first arena's own page size for its next page creation. -/
theorem spec_c9_swap_witness :
    (swapArenas (Arena.init 4) (Arena.init 8)).1.page_size_
      = (Arena.init 4).page_size_ ∧
    ((swapArenas (Arena.init 4) (Arena.init 8)).1.allocate 1).1.pages_
      = (Arena.init 8).pages_ ++ [max (Arena.init 4).page_size_ 1] :=
  ⟨(spec_c9_swap (Arena.init 4) (Arena.init 8)).1,
   (spec_c9_swap (Arena.init 4) (Arena.init 8)).2.2.2.2.2.2.1 1 (by decide)⟩

/-- C10: the constructor leaves `index_ = page_size`, so on a fresh arena
every allocation trace whose requests are all at least one byte only ever
dereferences `pages_.back()` when a page exists (the new-page branch is
taken before any page access), while a first call of `allocate 0` is not
covered by this guard. -/
theorem spec_c10_first_alloc_safety (ps : Nat) (ns : List Nat)
    (h : ∀ n ∈ ns, 1 ≤ n) :
    (Arena.init ps).index_ = ps ∧
    (Arena.init ps).traceSafe ns ∧
    ¬ (Arena.init ps).allocSafe 0 := by
  refine ⟨rfl, ?_, ?_⟩
  · exact Arena.traceSafe_of_cursorInv ns (Arena.init ps)
      (Arena.goodState_init ps).1 h
  · intro hs
    simp [Arena.allocSafe, Arena.init] at hs

/-- Witness for C10 on a concrete two-step trace. -/
theorem spec_c10_first_alloc_safety_witness :
    (∀ n ∈ [1, 5], 1 ≤ n) ∧
    ((Arena.init 8).traceSafe [1, 5] ∧ ¬ (Arena.init 8).allocSafe 0) :=
  ⟨by decide,
   (spec_c10_first_alloc_safety 8 [1, 5] (by decide)).2.1,
   (spec_c10_first_alloc_safety 8 [1, 5] (by decide)).2.2⟩

/-! ### Alignment (`Arena::align` and the typed `allocate<T>`) -/

/-- Bitwise NOT of a 64-bit word: for `x < 2 ^ 64` the complement `~x` is
`2 ^ 64 - 1 - x` (subtracting from the all-ones word flips every bit). -/
def not64 (x : Nat) : Nat := 2 ^ 64 - 1 - x % 2 ^ 64

/-- Model of `Arena::align(size_t a)` (arena.h:90):
`index_ = (index_ + (a - 1)) & ~(a - 1)` in 64-bit arithmetic. -/
def Arena.align (a : Arena) (al : Nat) : Arena :=
  { a with index_ := ((a.index_ + (al - 1)) % 2 ^ 64) &&& not64 (al - 1) }

/-- Model of the typed `Arena::allocate<T>(size_t num_elems)`
(arena.h:104-108): `align(alignof(T))`, then the byte-granular allocate of
`num_elems * max(sizeof(T), alignof(T))` bytes; the parameters `sz` and
`al` stand for `sizeof(T)` and `alignof(T)`. -/
def Arena.allocateT (a : Arena) (sz al num_elems : Nat) : Arena × Chunk :=
  (a.align al).allocate (num_elems * max sz al)

/-- Masking a 64-bit value with the complement of `2 ^ k - 1` clears the
low `k` bits, i.e. rounds down to a multiple of `2 ^ k`. -/
theorem land_not64_pow (x k : Nat) (hx : x < 2 ^ 64) (hk : k < 64) :
    x &&& not64 (2 ^ k - 1) = 2 ^ k * (x / 2 ^ k) := by
  have hple : (2:Nat) ^ k ≤ 2 ^ 64 := Nat.pow_le_pow_right (by norm_num) (by omega)
  have hm : not64 (2 ^ k - 1) = 2 ^ 64 - 2 ^ k := by
    have h2k : (1:Nat) ≤ 2 ^ k := Nat.one_le_two_pow
    unfold not64
    generalize (2:Nat) ^ k = P at hple h2k ⊢
    have h1 : P - 1 < 2 ^ 64 := by omega
    rw [Nat.mod_eq_of_lt h1]
    omega
  have hsplit : (2:Nat) ^ 64 = 2 ^ k * 2 ^ (64 - k) := by
    rw [← pow_add]
    congr 1
    omega
  have hm2 : (2:Nat) ^ 64 - 2 ^ k = 2 ^ k * (2 ^ (64 - k) - 1) := by
    rw [Nat.mul_sub_left_distrib, Nat.mul_one, ← hsplit]
  rw [hm, hm2]
  apply Nat.eq_of_testBit_eq
  intro i
  rw [Nat.testBit_and, Nat.testBit_mul_pow_two, Nat.testBit_mul_pow_two,
      Nat.testBit_two_pow_sub_one]
  rw [show x / 2 ^ k = x >>> k from (Nat.shiftRight_eq_div_pow x k).symm,
      Nat.testBit_shiftRight]
  by_cases hik : k ≤ i
  · by_cases hi64 : i < 64
    · have he : k + (i - k) = i := by omega
      rw [he]
      have hd : i - k < 64 - k := by omega
      simp [hik, hd, ge_iff_le]
    · have hi2 : (2:Nat) ^ 64 ≤ 2 ^ i := Nat.pow_le_pow_right (by norm_num) (by omega)
      have hxi : x.testBit i = false := Nat.testBit_lt_two_pow (by omega)
      have he : k + (i - k) = i := by omega
      have hd : ¬ i - k < 64 - k := by omega
      rw [he, hxi]
      simp [hd]
  · simp [ge_iff_le, hik]

/-- C7: the typed `allocate<T>(num_elems)` first rounds the cursor offset
up to the next multiple of `alignof(T)` (a power of two, assuming the sum
does not overflow 64 bits) and then reserves exactly
`num_elems * max(sizeof(T), alignof(T))` bytes through the byte-granular
`allocate`; alignment touches neither the page list nor the page size. -/
theorem spec_c7_typed_allocate (a : Arena) (sz al num_elems k : Nat)
    (hal : al = 2 ^ k) (hk : k < 64) (hidx : a.index_ + al ≤ 2 ^ 64) :
    a.allocateT sz al num_elems = (a.align al).allocate (num_elems * max sz al) ∧
    (a.align al).pages_ = a.pages_ ∧
    (a.align al).page_size_ = a.page_size_ ∧
    a.index_ ≤ (a.align al).index_ ∧
    (a.align al).index_ < a.index_ + al ∧
    al ∣ (a.align al).index_ := by
  subst hal
  have h2k : 1 ≤ 2 ^ k := Nat.one_le_two_pow
  have hx : a.index_ + (2 ^ k - 1) < 2 ^ 64 := by omega
  have halign : (a.align (2 ^ k)).index_
      = 2 ^ k * ((a.index_ + (2 ^ k - 1)) / 2 ^ k) := by
    show ((a.index_ + (2 ^ k - 1)) % 2 ^ 64) &&& not64 (2 ^ k - 1) = _
    rw [Nat.mod_eq_of_lt hx, land_not64_pow _ k hx hk]
  have hdm := Nat.div_add_mod (a.index_ + (2 ^ k - 1)) (2 ^ k)
  have hmod := Nat.mod_lt (a.index_ + (2 ^ k - 1)) (show 0 < 2 ^ k by omega)
  refine ⟨rfl, rfl, rfl, ?_, ?_, ?_⟩
  · rw [halign]
    generalize (a.index_ + (2 ^ k - 1)) / 2 ^ k = q at hdm ⊢
    generalize hr : (a.index_ + (2 ^ k - 1)) % 2 ^ k = r at hdm hmod
    generalize hM : 2 ^ k * q = M at hdm ⊢
    omega
  · rw [halign]
    generalize (a.index_ + (2 ^ k - 1)) / 2 ^ k = q at hdm ⊢
    generalize hr : (a.index_ + (2 ^ k - 1)) % 2 ^ k = r at hdm hmod
    generalize hM : 2 ^ k * q = M at hdm ⊢
    omega
  · rw [halign]
    exact dvd_mul_right _ _

/-- Witness for C7 on a concrete arena with `sizeof = 4`, `alignof = 8`. -/
theorem spec_c7_typed_allocate_witness :
    ((8:Nat) = 2 ^ 3 ∧ (3:Nat) < 64 ∧ (Arena.init 1024).index_ + 8 ≤ 2 ^ 64) ∧
    (Arena.init 1024).allocateT 4 8 5
      = ((Arena.init 1024).align 8).allocate (5 * max 4 8) ∧
    8 ∣ ((Arena.init 1024).align 8).index_ :=
  ⟨⟨by norm_num, by norm_num, by norm_num [Arena.init]⟩,
   (spec_c7_typed_allocate (Arena.init 1024) 4 8 5 3 (by norm_num) (by norm_num)
      (by norm_num [Arena.init])).1,
   (spec_c7_typed_allocate (Arena.init 1024) 4 8 5 3 (by norm_num) (by norm_num)
      (by norm_num [Arena.init])).2.2.2.2.2⟩

/-! ### Rollback helper lemmas -/

/-- When the allocation fitted in the current page, deallocating with the
pre-allocation state restores the arena exactly. -/
theorem Arena.rollback_exact (a : Arena) (n : Nat)
    (hb : ¬ a.index_ + n > a.page_size_) :
    ((a.allocate n).1).deallocate a.state = a := by
  rw [a.allocate_fits n hb]
  unfold Arena.deallocate Arena.state
  simp

/-- When the allocation created a new page, deallocating with the
pre-allocation state is a no-op. -/
theorem Arena.rollback_noop (a : Arena) (n : Nat)
    (hb : a.index_ + n > a.page_size_) :
    ((a.allocate n).1).deallocate a.state = (a.allocate n).1 := by
  have h1 : (a.allocate n).1.pages_.length = a.pages_.length + 1 := by
    rw [a.allocate_new n hb]
    simp
  unfold Arena.deallocate Arena.state
  rw [if_neg]
  omega

/-! ### Symbols (`fe::Sym`, sym.h) -/

/-- Model of `Sym` (sym.h:34-141): it wraps `str_`, an optional pointer to
a `String` record.  The pointer is the record's arena position (page,
offset); since a record is immutable once written, its byte content is
carried next to the pointer to model dereferencing `str_->size` and
`str_->chars`.  `none` models the `nullptr` of the empty symbol. -/
structure Sym where
  str_ : Option ((Nat × Nat) × List Nat)
deriving DecidableEq

/-- The default-constructed empty `Sym()` with `str_ = nullptr`. -/
def Sym.nil : Sym := ⟨none⟩

/-- Pointer component of `str_`, the value compared by `operator==`. -/
def Sym.ptr (s : Sym) : Option (Nat × Nat) := s.str_.map Prod.fst

/-- Model of `Sym::operator==` (sym.h:104): pointer identity
`this->str_ == other.str_`. -/
def Sym.beq (s t : Sym) : Bool := decide (s.ptr = t.ptr)

/-- Model of `Sym::size` (sym.h:75): `str_ ? str_->size : 0`; the record's
`size` field holds its content length (sym.h:192). -/
def Sym.size (s : Sym) : Nat :=
  match s.str_ with
  | some r => r.2.length
  | none => 0

/-- Model of `Sym::view` (sym.h:121): the referenced bytes, or the empty
view for the null pointer. -/
def Sym.view (s : Sym) : List Nat :=
  match s.str_ with
  | some r => r.2
  | none => []

/-- Model of `Sym::operator bool` (sym.h:127): is the symbol non-empty? -/
def Sym.toBool (s : Sym) : Bool := s.str_.isSome

/-- Three-way lexicographic comparison of byte sequences — the semantics
of `std::string_view::operator<=>` (bytes compared as unsigned values). -/
def lexCmp : List Nat → List Nat → Ordering
  | [], [] => Ordering.eq
  | [], _ :: _ => Ordering.lt
  | _ :: _, [] => Ordering.gt
  | a :: as, b :: bs =>
    if a < b then Ordering.lt
    else if b < a then Ordering.gt
    else lexCmp as bs

/-- Model of `Sym::operator<=>` (sym.h:103): compare
`this->view() <=> other.view()`. -/
def Sym.cmp (s t : Sym) : Ordering := lexCmp s.view t.view

/-! ### The symbol pool (`fe::SymPool`, sym.h:167-224) -/

/-- Size of the `Sym::String` header: the static_assert at sym.h:64 pins
`sizeof(String)` to `sizeof(size_t)`, i.e. 8 bytes. -/
def sizeofString : Nat := 8

/-- Model of `fe::SymPool`: the string arena `strings_` plus the
content-keyed set `pool_`, represented as the list of interned `String`
records (arena position and content) in insertion order. -/
structure SymPool where
  strings_ : Arena
  pool_ : List ((Nat × Nat) × List Nat)
deriving DecidableEq

/-- A freshly constructed `SymPool()`: default arena, empty set. -/
def SymPool.new : SymPool := ⟨Arena.init defaultPageSize, []⟩

/-- Model of `SymPool::sym(std::string_view)` (sym.h:188-198): empty input
returns `Sym()` at once; otherwise save the arena state, tentatively
allocate `sizeof(String) + size + 1` bytes for the record, then probe the
content-keyed set (`pool_.emplace`): on a hit deallocate to the saved
state and return the canonical record, otherwise commit the new record. -/
def SymPool.sym (p : SymPool) (s : List Nat) : SymPool × Sym :=
  if s = [] then (p, Sym.nil)
  else
    let st := p.strings_.state
    let q := p.strings_.allocate (sizeofString + s.length + 1)
    match p.pool_.find? (fun t => t.2 == s) with
    | some r => ({ strings_ := q.1.deallocate st, pool_ := p.pool_ }, ⟨some r⟩)
    | none =>
      ({ strings_ := q.1, pool_ := p.pool_ ++ [((q.2.page, q.2.off), s)] },
       ⟨some ((q.2.page, q.2.off), s)⟩)

/-- Model of `SymPool::sym(const char*)` (sym.h:201): `none` models a null
`char*`; otherwise the list is the raw character array.  Null or
leading-NUL input returns `Sym()`; otherwise the bytes before the first
NUL (what `strlen` measures) are interned. -/
def SymPool.symC (p : SymPool) (s : Option (List Nat)) : SymPool × Sym :=
  match s with
  | none => (p, Sym.nil)
  | some cs =>
    if cs.head? = some 0 then (p, Sym.nil)
    else p.sym (cs.takeWhile (fun c => c != 0))

/-- Run a sequence of `sym` calls, returning the final pool. -/
def SymPool.runSyms (p : SymPool) : List (List Nat) → SymPool
  | [] => p
  | s :: ss => ((p.sym s).1).runSyms ss

/-- The byte range occupied by an interned record: header, bytes, NUL. -/
def recordChunk (r : (Nat × Nat) × List Nat) : Chunk :=
  { page := r.1.1, off := r.1.2, size := sizeofString + r.2.length + 1 }

/-- Invariant of a symbol pool: the arena is well formed, every interned
record is a nonempty string occupying a real byte range of the arena, and
records are unique both by pointer and by content. -/
def SymPool.inv (p : SymPool) : Prop :=
  p.strings_.goodState ∧
  (∀ r ∈ p.pool_, r.2 ≠ [] ∧ p.strings_.inBounds (recordChunk r)) ∧
  (∀ r1 ∈ p.pool_, ∀ r2 ∈ p.pool_, r1.1 = r2.1 ∨ r1.2 = r2.2 → r1 = r2)

/-! ### Lemmas about `sym` -/

theorem SymPool.sym_empty_eq (p : SymPool) : p.sym [] = (p, Sym.nil) := by
  simp [SymPool.sym]

theorem SymPool.sym_hit (p : SymPool) (s : List Nat)
    (r : (Nat × Nat) × List Nat) (hs : s ≠ [])
    (hf : p.pool_.find? (fun t => t.2 == s) = some r) :
    p.sym s =
      ({ strings_ := ((p.strings_.allocate (sizeofString + s.length + 1)).1).deallocate
           p.strings_.state,
         pool_ := p.pool_ }, ⟨some r⟩) := by
  simp [SymPool.sym, hs, hf]

theorem SymPool.sym_miss (p : SymPool) (s : List Nat) (hs : s ≠ [])
    (hf : p.pool_.find? (fun t => t.2 == s) = none) :
    p.sym s =
      ({ strings_ := (p.strings_.allocate (sizeofString + s.length + 1)).1,
         pool_ := p.pool_ ++
           [(((p.strings_.allocate (sizeofString + s.length + 1)).2.page,
              (p.strings_.allocate (sizeofString + s.length + 1)).2.off), s)] },
       ⟨some (((p.strings_.allocate (sizeofString + s.length + 1)).2.page,
               (p.strings_.allocate (sizeofString + s.length + 1)).2.off), s)⟩) := by
  simp [SymPool.sym, hs, hf]

theorem SymPool.sym_pool_mono (p : SymPool) (s : List Nat) :
    ∀ r ∈ p.pool_, r ∈ ((p.sym s).1).pool_ := by
  intro r hr
  by_cases hs : s = []
  · subst hs
    rw [p.sym_empty_eq]
    exact hr
  · cases hf : p.pool_.find? (fun t => t.2 == s) with
    | some r0 =>
      rw [p.sym_hit s r0 hs hf]
      exact hr
    | none =>
      rw [p.sym_miss s hs hf]
      exact List.mem_append_left _ hr

theorem SymPool.sym_view (p : SymPool) (s : List Nat) :
    ((p.sym s).2).view = s := by
  by_cases hs : s = []
  · subst hs
    rw [p.sym_empty_eq]
    rfl
  · cases hf : p.pool_.find? (fun t => t.2 == s) with
    | some r0 =>
      have hr0 : r0.2 = s := by
        have := List.find?_some hf
        simpa using this
      rw [p.sym_hit s r0 hs hf]
      simpa [Sym.view] using hr0
    | none =>
      rw [p.sym_miss s hs hf]
      rfl

theorem SymPool.sym_some (p : SymPool) (s : List Nat) (hs : s ≠ []) :
    ∃ r, (p.sym s).2 = ⟨some r⟩ ∧ r ∈ ((p.sym s).1).pool_ ∧ r.2 = s := by
  cases hf : p.pool_.find? (fun t => t.2 == s) with
  | some r0 =>
    refine ⟨r0, ?_, ?_, ?_⟩
    · rw [p.sym_hit s r0 hs hf]
    · rw [p.sym_hit s r0 hs hf]
      exact List.mem_of_find?_eq_some hf
    · have := List.find?_some hf
      simpa using this
  | none =>
    refine ⟨(((p.strings_.allocate (sizeofString + s.length + 1)).2.page,
             (p.strings_.allocate (sizeofString + s.length + 1)).2.off), s),
            ?_, ?_, rfl⟩
    · rw [p.sym_miss s hs hf]
    · rw [p.sym_miss s hs hf]
      exact List.mem_append_right _ (List.mem_singleton_self _)

/-! ### Preservation of the pool invariant -/

theorem SymPool.inv_sym (p : SymPool) (s : List Nat) (hp : p.inv) :
    ((p.sym s).1).inv := by
  obtain ⟨hg, hrec, huniq⟩ := hp
  by_cases hs : s = []
  · subst hs
    rw [p.sym_empty_eq]
    exact ⟨hg, hrec, huniq⟩
  · cases hf : p.pool_.find? (fun t => t.2 == s) with
    | some r0 =>
      rw [p.sym_hit s r0 hs hf]
      by_cases hb : p.strings_.index_ + (sizeofString + s.length + 1)
          > p.strings_.page_size_
      · rw [show ((p.strings_.allocate (sizeofString + s.length + 1)).1).deallocate
              p.strings_.state
            = (p.strings_.allocate (sizeofString + s.length + 1)).1 from
            Arena.rollback_noop _ _ hb]
        exact ⟨p.strings_.goodState_allocate _ hg,
          fun r hr => ⟨(hrec r hr).1, p.strings_.inBounds_allocate _ _ (hrec r hr).2⟩,
          huniq⟩
      · rw [Arena.rollback_exact _ _ hb]
        exact ⟨hg, hrec, huniq⟩
    | none =>
      rw [p.sym_miss s hs hf]
      set n := sizeofString + s.length + 1 with hn
      set c := (p.strings_.allocate n).2 with hcdef
      have h8 : sizeofString = 8 := rfl
      have hn1 : 1 ≤ n := by omega
      have hfresh := p.strings_.allocate_fresh n hg hn1
      have hszc : c.size = n := p.strings_.allocate_size_eq n
      have hchunk : recordChunk ((c.page, c.off), s) = c := by
        have hr : recordChunk ((c.page, c.off), s)
            = { page := c.page, off := c.off, size := n } := rfl
        rw [hr]
        cases hc0 : c with
        | mk pg off sz =>
          rw [hc0] at hszc
          simp only at hszc
          simp [hszc]
      have hnotin : ∀ r ∈ p.pool_, r.2 ≠ s := by
        intro r hr hcon
        have := List.find?_eq_none.mp hf r hr
        simp [hcon] at this
      have hclash : ∀ r ∈ p.pool_, ¬ (r.1 = (c.page, c.off) ∨ r.2 = s) := by
        intro r hr hor
        rcases hor with hptr | hcnt
        · have hdisj := hfresh.2 (recordChunk r) (hrec r hr).2
          rw [← hcdef] at hdisj
          have hpg : r.1.1 = c.page := by rw [hptr]
          have hoff : r.1.2 = c.off := by rw [hptr]
          rcases hdisj with h | h | h
          · exact h (by simp [recordChunk, hpg])
          · simp only [recordChunk] at h
            omega
          · simp only [recordChunk] at h
            omega
        · exact hnotin r hr hcnt
      refine ⟨p.strings_.goodState_allocate n hg, ?_, ?_⟩
      · intro r hr
        rcases List.mem_append.mp hr with hr | hr
        · exact ⟨(hrec r hr).1, p.strings_.inBounds_allocate _ n (hrec r hr).2⟩
        · rw [List.mem_singleton] at hr
          subst hr
          exact ⟨hs, by rw [hchunk]; exact hfresh.1⟩
      · intro r1 hr1 r2 hr2 hor
        rcases List.mem_append.mp hr1 with h1 | h1 <;>
          rcases List.mem_append.mp hr2 with h2 | h2
        · exact huniq r1 h1 r2 h2 hor
        · rw [List.mem_singleton] at h2
          subst h2
          exact absurd hor (hclash r1 h1)
        · rw [List.mem_singleton] at h1
          subst h1
          rcases hor with hptr | hcnt
          · exact absurd (Or.inl hptr.symm) (hclash r2 h2)
          · exact absurd (Or.inr hcnt.symm) (hclash r2 h2)
        · rw [List.mem_singleton] at h1 h2
          rw [h1, h2]

theorem SymPool.inv_new : SymPool.new.inv := by
  refine ⟨Arena.goodState_init defaultPageSize, ?_, ?_⟩
  · intro r hr
    simp [SymPool.new] at hr
  · intro r1 hr1
    simp [SymPool.new] at hr1

theorem SymPool.runSyms_inv (ss : List (List Nat)) : ∀ p : SymPool,
    p.inv → (p.runSyms ss).inv := by
  induction ss with
  | nil => exact fun p hp => hp
  | cons s ss ih => exact fun p hp => ih _ (p.inv_sym s hp)

theorem SymPool.runSyms_pool_mono (ss : List (List Nat)) :
    ∀ (p : SymPool) (r : (Nat × Nat) × List Nat),
      r ∈ p.pool_ → r ∈ (p.runSyms ss).pool_ := by
  induction ss with
  | nil => exact fun p r hr => hr
  | cons s ss ih => exact fun p r hr => ih _ r (p.sym_pool_mono s r hr)

/-- Interning a content that is already in the pool returns exactly its
unique canonical record. -/
theorem SymPool.sym_canonical (p : SymPool) (s : List Nat) (hp : p.inv)
    (r : (Nat × Nat) × List Nat) (hr : r ∈ p.pool_) (hc : r.2 = s) :
    (p.sym s).2 = ⟨some r⟩ := by
  have hs : s ≠ [] := hc ▸ (hp.2.1 r hr).1
  cases hf : p.pool_.find? (fun t => t.2 == s) with
  | none =>
    exfalso
    have := List.find?_eq_none.mp hf r hr
    simp [hc] at this
  | some r0 =>
    have hr0mem : r0 ∈ p.pool_ := List.mem_of_find?_eq_some hf
    have hr0c : r0.2 = s := by simpa using List.find?_some hf
    have heq : r0 = r := hp.2.2 r0 hr0mem r hr (Or.inr (by rw [hr0c, hc]))
    rw [p.sym_hit s r0 hs hf, heq]

/-! ### Symbol pool claim theorems -/

/-- C1: for any pool satisfying the interning invariant, two `sym` calls —
with any further `sym` calls in between — return Symbols that compare
equal under the pointer-identity `operator==` iff the two interned byte
sequences are identical; in particular interning the same bytes twice
yields identity-equal Symbols. -/
theorem spec_c1_identity_iff_content (p : SymPool) (hp : p.inv)
    (s1 s2 : List Nat) (ts : List (List Nat)) :
    Sym.beq (p.sym s1).2 ((((p.sym s1).1).runSyms ts).sym s2).2 = true ↔ s1 = s2 := by
  have hp1 : ((p.sym s1).1).inv := p.inv_sym s1 hp
  have hp2 : (((p.sym s1).1).runSyms ts).inv := SymPool.runSyms_inv ts _ hp1
  have hp3 : (((((p.sym s1).1).runSyms ts).sym s2).1).inv :=
    SymPool.inv_sym _ s2 hp2
  by_cases h1 : s1 = []
  · by_cases h2 : s2 = []
    · subst h1
      subst h2
      rw [p.sym_empty_eq, SymPool.sym_empty_eq]
      simp [Sym.beq]
    · subst h1
      obtain ⟨r2, hb, hmem2, hc2⟩ := SymPool.sym_some _ s2 h2
      rw [p.sym_empty_eq, hb]
      refine iff_of_false ?_ (fun hh => h2 hh.symm)
      simp [Sym.beq, Sym.ptr, Sym.nil]
  · obtain ⟨r1, ha, hmem1, hc1⟩ := p.sym_some s1 h1
    have hmem1b : r1 ∈ ((((p.sym s1).1).runSyms ts)).pool_ :=
      SymPool.runSyms_pool_mono ts _ r1 hmem1
    by_cases h2 : s2 = []
    · subst h2
      rw [ha, SymPool.sym_empty_eq]
      refine iff_of_false ?_ (fun hh => h1 hh)
      simp [Sym.beq, Sym.ptr, Sym.nil]
    · obtain ⟨r2, hb, hmem2, hc2⟩ := SymPool.sym_some _ s2 h2
      have hmem1c : r1 ∈ (((((p.sym s1).1).runSyms ts).sym s2).1).pool_ :=
        SymPool.sym_pool_mono _ s2 r1 hmem1b
      rw [ha, hb]
      constructor
      · intro hbeq
        simp [Sym.beq, Sym.ptr] at hbeq
        have heq : r1 = r2 := hp3.2.2 r1 hmem1c r2 hmem2 (Or.inl hbeq)
        rw [← hc1, ← hc2, heq]
      · intro heq
        have hc1b : r1.2 = s2 := heq ▸ hc1
        have hcanon := SymPool.sym_canonical _ s2 hp2 r1 hmem1b hc1b
        rw [hb] at hcanon
        have hr12 : r2 = r1 := by
          have := hcanon
          simp only [Sym.mk.injEq, Option.some.injEq] at this
          exact this
        rw [hr12]
        simp [Sym.beq]

/-- Witness for C1: interning `"a"` twice on a fresh pool gives
identity-equal Symbols. -/
theorem spec_c1_identity_iff_content_witness :
    SymPool.new.inv ∧
    Sym.beq (SymPool.new.sym [97]).2
      ((((SymPool.new.sym [97]).1).runSyms []).sym [97]).2 = true :=
  ⟨SymPool.inv_new,
   (spec_c1_identity_iff_content SymPool.new SymPool.inv_new [97] [97] []).mpr rfl⟩

/-- C2: after any sequence of `sym` calls on a fresh pool, the pool's set
holds at most one `String` record per byte content (the hash-consing
invariant). -/
theorem spec_c2_hash_consing (ss : List (List Nat))
    (r1 r2 : (Nat × Nat) × List Nat)
    (h1 : r1 ∈ (SymPool.new.runSyms ss).pool_)
    (h2 : r2 ∈ (SymPool.new.runSyms ss).pool_)
    (hc : r1.2 = r2.2) : r1 = r2 :=
  (SymPool.runSyms_inv ss SymPool.new SymPool.inv_new).2.2 r1 h1 r2 h2 (Or.inr hc)

/-- Witness for C2: the record of `"a"` after interning `"a"`, `"b"`,
`"a"` is unique for its content. -/
theorem spec_c2_hash_consing_witness :
    ((((0, 0), [97]) : (Nat × Nat) × List Nat)
        ∈ (SymPool.new.runSyms [[97], [98], [97]]).pool_) ∧
    ((((0, 0), [97]) : (Nat × Nat) × List Nat) = ((0, 0), [97])) :=
  ⟨by decide,
   spec_c2_hash_consing [[97], [98], [97]] ((0, 0), [97]) ((0, 0), [97])
     (by decide) (by decide) rfl⟩

/-- C4: interning an empty view, a null `char*`, or a terminator-only
C-string all return the same empty Symbol and leave the pool (arena and
set) completely untouched — no allocation, no lookup; the empty Symbol has
size `0` and converts to `false`. -/
theorem spec_c4_empty_normalization (p : SymPool) :
    p.sym [] = (p, Sym.nil) ∧
    p.symC none = (p, Sym.nil) ∧
    p.symC (some [0]) = (p, Sym.nil) ∧
    Sym.nil.size = 0 ∧
    Sym.nil.toBool = false :=
  ⟨p.sym_empty_eq, rfl, rfl, rfl, rfl⟩

/-- C8: `operator<=>` on Symbols of one pool is exactly the lexicographic
comparison of the interned byte sequences, the empty Symbol orders below
every non-empty Symbol, and in particular `sym "ab" < sym "b"`. -/
theorem spec_c8_ordering (p : SymPool) (s1 s2 : List Nat) :
    Sym.cmp (p.sym s1).2 (((p.sym s1).1).sym s2).2 = lexCmp s1 s2 ∧
    (s2 ≠ [] → Sym.cmp Sym.nil (((p.sym s1).1).sym s2).2 = Ordering.lt) ∧
    Sym.cmp (SymPool.new.sym [97, 98]).2
      (((SymPool.new.sym [97, 98]).1).sym [98]).2 = Ordering.lt := by
  have hv1 := p.sym_view s1
  have hv2 := (p.sym s1).1.sym_view s2
  refine ⟨?_, ?_, ?_⟩
  · rw [Sym.cmp, hv1, hv2]
  · intro h2
    rw [Sym.cmp, hv2]
    show lexCmp [] s2 = Ordering.lt
    cases s2 with
    | nil => exact absurd rfl h2
    | cons b bs => rfl
  · have hva := SymPool.new.sym_view [97, 98]
    have hvb := (SymPool.new.sym [97, 98]).1.sym_view [98]
    rw [Sym.cmp, hva, hvb]
    rfl

/-- Witness for C8: `sym "a"` against `sym "b"`, and the empty Symbol
against `sym "b"`. -/
theorem spec_c8_ordering_witness :
    Sym.cmp (SymPool.new.sym [97]).2 (((SymPool.new.sym [97]).1).sym [98]).2
      = lexCmp [97] [98] ∧
    Sym.cmp Sym.nil (((SymPool.new.sym [97]).1).sym [98]).2 = Ordering.lt :=
  ⟨(spec_c8_ordering SymPool.new [97] [98]).1,
   (spec_c8_ordering SymPool.new [97] [98]).2.1 (by decide)⟩

end fe
